import Mathlib

set_option maxRecDepth 8192

/-!
Shallow embedding of the edit-history resolution core of
`dash-image-processing` (`src/app.py`), together with theorems settling
claims C1-C10 about its specification.

The embedding follows the source:
* `add_action_to_stack` (app.py lines 200-208),
* the memoized recursive resolver `apply_actions_on_image`
  (app.py lines 212-271, decorated with `@cache.memoize()`),
* the region-resolution block inside it (app.py lines 232-249),
* the stack-building else-branch of `update_graph_interactive_image`
  (app.py lines 350-364),
* the JSON transport of the action stack (`json.loads`/`json.dumps`,
  app.py lines 327-328 and 380-384).

Python-level conventions of the model: machine strings are `String`, numeric
fields are `Int` (the slider factor and plotly coordinates; `map(int, ...)`
in the source makes the resolved rectangle integral), pixel values are `Nat`,
and the in-place mutation of the source is modelled by explicit value passing
(`deepcopy` is the identity on values; the one place where object identity
matters, claim C9, gets an explicit heap model below).
-/

namespace DashApp

/-- A user selection descriptor, as read by `apply_actions_on_image`
(app.py lines 233-245): a plotly `selectedData` payload carrying either
`lassoPoints` (two coordinate arrays) or `range` (an x-interval and a
y-interval).  A missing/falsy payload is `Option.none` at the use sites. -/
inductive SelData where
  | rectSel (x0 x1 y0 y1 : Int)
  | lassoSel (xs ys : List Int)
deriving DecidableEq, Repr

/-- The `operation` field of an action: a plain name for `type = 'filter'`
(app.py line 355), or the dict
`\x7b'enhancement': name, 'enhancement_factor': factor\x7d` for
`type = 'enhance'` (app.py line 360). -/
inductive OpVal where
  | opName (s : String)
  | opEnh (enhancement : String) (enhancement_factor : Int)
deriving DecidableEq, Repr

/-- One entry of the action stack, the dict built by `add_action_to_stack`
(app.py lines 202-206) with keys `operation`, `type`, `selectedData`. -/
structure Action where
  operation : OpVal
  type : String
  selectedData : Option SelData
deriving DecidableEq, Repr

/-- `add_action_to_stack(action_stack, operation, type, selectedData)`
(app.py lines 200-208): builds the action dict and appends it in place;
modelled as returning the extended list.  The source performs no
validation of any of the fields. -/
def add_action_to_stack (action_stack : List Action) (operation : OpVal)
    (type : String) (selectedData : Option SelData) : List Action :=
  action_stack ++ [{ operation := operation, type := type, selectedData := selectedData }]

/-- A pixel buffer: rows of pixel values.  PIL images carry their size;
`im_pil.size` is `(width, height)`. -/
structure Buffer where
  rows : List (List Nat)
deriving DecidableEq, Repr

/-- Width of a buffer (length of its first row; all-rows-equal-length is not
needed by any claim). -/
def Buffer.width (b : Buffer) : Nat := (b.rows.headD []).length

/-- Height of a buffer (number of rows). -/
def Buffer.height (b : Buffer) : Nat := b.rows.length

/-- `im_pil.size` in PIL order `(width, height)` (app.py line 225). -/
def Buffer.size (b : Buffer) : Nat × Nat := (b.width, b.height)

/-- Pixel at column `x`, row `y` (0 outside the grid). -/
def Buffer.pixel (b : Buffer) (x y : Nat) : Nat := ((b.rows.getD y []).getD x 0)

/-- Modelled from the spec: one edge step of the even-odd crossing test used
by the free-form rasterizer (the source's `generate_lasso_mask` lives in
`utils.py`, which is not part of `src/`).  `true` when the horizontal ray
from `(x, y)` crosses the open edge from `(x1, y1)` to `(x2, y2)`. -/
def edgeCrosses (x1 y1 x2 y2 x y : Int) : Bool :=
  if (decide (y1 ≤ y)) = (decide (y2 ≤ y)) then false
  else if y2 > y1 then decide ((x - x1) * (y2 - y1) < (x2 - x1) * (y - y1))
  else decide ((x - x1) * (y2 - y1) > (x2 - x1) * (y - y1))

/-- Modelled from the spec: even-odd point-in-polygon test over the closed
polygon with vertex lists `xs`, `ys`; degenerate polygons (fewer than three
vertices) contain no points. -/
def pointInPoly (xs ys : List Int) (x y : Int) : Bool :=
  if xs.length < 3 then false
  else
    let pts := xs.zip ys
    let edges := pts.zip (pts.rotateLeft 1)
    (edges.countP fun e => edgeCrosses e.1.1 e.1.2 e.2.1 e.2.2 x y) % 2 = 1

/-- A resolved selection: a crop rectangle `(left, upper, right, lower)` in
buffer coordinates (half-open on the right and bottom, as PIL's `crop` box),
or a free-form mask given by its polygon. -/
inductive Zone where
  | zrect (left upper right lower : Int)
  | zmask (xs ys : List Int)
deriving DecidableEq, Repr

/-- Membership of buffer pixel `(x, y)` in a resolved zone. -/
def inZone (z : Zone) (x y : Nat) : Bool :=
  match z with
  | .zrect l t r b => decide (l ≤ (x : Int)) && decide ((x : Int) < r)
      && decide (t ≤ (y : Int)) && decide ((y : Int) < b)
  | .zmask xs ys => pointInPoly xs ys x y

/-- The region-resolution block of `apply_actions_on_image`
(app.py lines 232-249): a `lassoPoints` payload goes to the mask path; a
`range` payload has its y-interval flipped
(`upper = height - upper; lower = height - lower`, lines 243-244) and becomes
the crop box `(left, upper, right, lower)` with no clamping; a missing
payload selects the whole image, `(0, 0) + im_size` (line 249). -/
def resolveZone (selectedData : Option SelData) (im_size : Nat × Nat) : Zone :=
  match selectedData with
  | some (.lassoSel xs ys) => .zmask xs ys
  | some (.rectSel x0 x1 y0 y1) =>
      let height : Int := im_size.2
      .zrect x0 (height - y1) x1 (height - y0)
  | none => .zrect 0 0 im_size.1 im_size.2

/-- Modelled from the spec: the Operation Adapter semantics.  The pixel
algorithms (`utils.apply_filters` / `utils.apply_enhancements`) are external
collaborators absent from `src/`; the spec only requires an opaque, pure,
canvas-preserving transform applied inside the resolved region.  Each is
modelled as a per-pixel transform chosen by the action's `operation` value. -/
structure OpSem where
  filterSem : OpVal → Nat → Nat
  enhanceSem : OpVal → Nat → Nat

/-- One row of `applyZone`: transform the pixels whose column lies in the
zone at row `y`, starting at column `x`. -/
def applyRow (f : Nat → Nat) (z : Zone) (y : Nat) : Nat → List Nat → List Nat
  | _, [] => []
  | x, p :: t => (if inZone z x y then f p else p) :: applyRow f z y (x + 1) t

/-- Rows of `applyZone`, starting at row `y`. -/
def applyRows (f : Nat → Nat) (z : Zone) : Nat → List (List Nat) → List (List Nat)
  | _, [] => []
  | y, r :: t => applyRow f z y 0 r :: applyRows f z (y + 1) t

/-- Modelled from the spec: `apply(buffer, region, operation)` — a new buffer
identical to the input outside the region and transformed pixel-wise inside
it. -/
def applyZone (f : Nat → Nat) (z : Zone) (im : Buffer) : Buffer :=
  ⟨applyRows f z 0 im.rows⟩

/-- The action-application tail of `apply_actions_on_image`
(app.py lines 228-269): resolve the zone from the action's `selectedData`
against the buffer's size, then dispatch on `type`: `'filter'` applies the
filter semantics, `'enhance'` the enhancement semantics, and any other type
string falls through both branches leaving the buffer unchanged. -/
def applyActionOnBuffer (sem : OpSem) (a : Action) (im : Buffer) : Buffer :=
  let zone := resolveZone a.selectedData im.size
  if a.type = "filter" then applyZone (sem.filterSem a.operation) zone im
  else if a.type = "enhance" then applyZone (sem.enhanceSem a.operation) zone im
  else im

/-- The memoization key of `@cache.memoize()` on `apply_actions_on_image`:
the argument tuple `(session_id, action_stack, filename, image_signature)`. -/
abbrev CacheKey := String × List Action × String × String

/-- The replay cache: an association list from memoization keys to stored
buffers (flask-caching's backing store). -/
abbrev Cache := List (CacheKey × Buffer)

/-- Cache lookup. -/
def lookupC : Cache → CacheKey → Option Buffer
  | [], _ => none
  | (k, v) :: t, key => if k = key then some v else lookupC t key

/-- Cache store. -/
def insertC (c : Cache) (key : CacheKey) (im : Buffer) : Cache := (key, im) :: c

/-- Worker for `apply_actions_on_image`, recursing on the reversed stack so
that the recursion is structural: `applyRev rev c` resolves the stack
`rev.reverse`.  Each level mirrors one invocation of the memoized wrapper
(app.py lines 212-271): build the key from the actual argument tuple, return
on a hit, otherwise run the body — base case reads the session's original
image (lines 216-219), the recursive case pops the last action (line 222),
resolves the rest (line 224) and applies the popped action (lines 225-269) —
and store the result under the key before returning. -/
def applyRev (sem : OpSem) (image_string_dict : String → Buffer) (session_id : String)
    (filename image_signature : String) : List Action → Cache → Buffer × Cache
  | [], cache =>
      let key : CacheKey := (session_id, [], filename, image_signature)
      match lookupC cache key with
      | some im => (im, cache)
      | none =>
          let im := image_string_dict session_id
          (im, insertC cache key im)
  | a :: r, cache =>
      let key : CacheKey := (session_id, (a :: r).reverse, filename, image_signature)
      match lookupC cache key with
      | some im => (im, cache)
      | none =>
          let res := applyRev sem image_string_dict session_id filename image_signature r cache
          let im := applyActionOnBuffer sem a res.1
          (im, insertC res.2 key im)

/-- `apply_actions_on_image(session_id, action_stack, filename,
image_signature)` under `@cache.memoize()` (app.py lines 212-271), with the
cache passed explicitly: returns the resolved buffer together with the cache
after the call.  `image_string_dict` is the module-level dictionary of
original images (app.py line 26); the `deepcopy` on line 214 is the identity
on values. -/
def apply_actions_on_image (sem : OpSem) (image_string_dict : String → Buffer)
    (session_id : String) (action_stack : List Action)
    (filename image_signature : String) (cache : Cache) : Buffer × Cache :=
  applyRev sem image_string_dict session_id filename image_signature action_stack.reverse cache

/-- The pure meaning of resolving an action stack: fold the actions, in
stack order, over the session's original image. -/
def resolveStack (sem : OpSem) (orig : Buffer) (stack : List Action) : Buffer :=
  stack.foldl (fun im a => applyActionOnBuffer sem a im) orig

/-- A cache is coherent when every stored entry equals the pure resolution
of its key. -/
def coherentCache (sem : OpSem) (image_string_dict : String → Buffer) (c : Cache) : Prop :=
  ∀ sid st fn sg im, lookupC c (sid, st, fn, sg) = some im →
    im = resolveStack sem (image_string_dict sid) st

theorem lookupC_insertC (c : Cache) (key k : CacheKey) (im : Buffer) :
    lookupC (insertC c key im) k = if key = k then some im else lookupC c k := by
  simp [insertC, lookupC]

theorem resolveStack_concat (sem : OpSem) (orig : Buffer) (stack : List Action) (a : Action) :
    resolveStack sem orig (stack ++ [a]) = applyActionOnBuffer sem a (resolveStack sem orig stack) := by
  simp [resolveStack]

theorem coherentCache_nil (sem : OpSem) (image_string_dict : String → Buffer) :
    coherentCache sem image_string_dict [] := by
  intro sid st fn sg im h
  simp [lookupC] at h

/-- Memoization invariant of `applyRev`: from a coherent cache it returns the
pure resolution of the (reversed) stack and leaves the cache coherent. -/
theorem applyRev_coherent (sem : OpSem) (image_string_dict : String → Buffer)
    (session_id filename image_signature : String) :
    ∀ (r : List Action) (c : Cache), coherentCache sem image_string_dict c →
      (applyRev sem image_string_dict session_id filename image_signature r c).1 =
        resolveStack sem (image_string_dict session_id) r.reverse ∧
      coherentCache sem image_string_dict
        (applyRev sem image_string_dict session_id filename image_signature r c).2 := by
  intro r
  induction r with
  | nil =>
      intro c hc
      cases hlk : lookupC c (session_id, [], filename, image_signature) with
      | some im =>
          constructor
          · simp only [applyRev, hlk]
            have h := hc _ _ _ _ _ hlk
            simpa [resolveStack] using h
          · simpa only [applyRev, hlk] using hc
      | none =>
          constructor
          · simp [applyRev, hlk, resolveStack]
          · simp only [applyRev, hlk]
            intro sid st fn sg im h
            rw [lookupC_insertC] at h
            by_cases hk : ((session_id, ([] : List Action), filename, image_signature) : CacheKey)
                = (sid, st, fn, sg)
            · rw [if_pos hk] at h
              obtain ⟨rfl, rfl, rfl, rfl⟩ := hk
              cases h
              simp [resolveStack]
            · rw [if_neg hk] at h
              exact hc _ _ _ _ _ h
  | cons a t ih =>
      intro c hc
      cases hlk : lookupC c (session_id, (a :: t).reverse, filename, image_signature) with
      | some im =>
          constructor
          · simp only [applyRev, hlk]
            exact hc _ _ _ _ _ hlk
          · simpa only [applyRev, hlk] using hc
      | none =>
          obtain ⟨h1, h2⟩ := ih c hc
          constructor
          · simp only [applyRev, hlk]
            simp only [List.reverse_cons]
            rw [resolveStack_concat, ← h1]
          · simp only [applyRev, hlk]
            intro sid st fn sg im h
            rw [lookupC_insertC] at h
            by_cases hk : ((session_id, (a :: t).reverse, filename, image_signature) : CacheKey)
                = (sid, st, fn, sg)
            · rw [if_pos hk] at h
              obtain ⟨rfl, rfl, rfl, rfl⟩ := hk
              cases h
              simp only [List.reverse_cons]
              rw [resolveStack_concat, ← h1]
            · rw [if_neg hk] at h
              exact h2 _ _ _ _ _ h

/-- Memoization invariant of `apply_actions_on_image`: from a coherent cache
it returns the pure resolution of the stack and leaves the cache coherent. -/
theorem apply_actions_on_image_coherent (sem : OpSem) (image_string_dict : String → Buffer)
    (session_id : String) (action_stack : List Action) (filename image_signature : String)
    (cache : Cache) (hc : coherentCache sem image_string_dict cache) :
    (apply_actions_on_image sem image_string_dict session_id action_stack
        filename image_signature cache).1 =
      resolveStack sem (image_string_dict session_id) action_stack ∧
    coherentCache sem image_string_dict
      (apply_actions_on_image sem image_string_dict session_id action_stack
        filename image_signature cache).2 := by
  have h := applyRev_coherent sem image_string_dict session_id filename image_signature
    action_stack.reverse cache hc
  rw [List.reverse_reverse] at h
  exact h

/-- Cache-hit equation of the memoized worker. -/
theorem applyRev_hit (sem : OpSem) (image_string_dict : String → Buffer)
    (session_id filename image_signature : String) (r : List Action) (c : Cache) (im : Buffer)
    (h : lookupC c (session_id, r.reverse, filename, image_signature) = some im) :
    applyRev sem image_string_dict session_id filename image_signature r c = (im, c) := by
  cases r with
  | nil => simp only [List.reverse_nil] at h; simp [applyRev, h]
  | cons a t =>
      simp only [List.reverse_cons] at h
      simp [applyRev, h]

/-- Cache-hit equation of `apply_actions_on_image`: a present key is returned
as stored, with the cache untouched and no recomputation. -/
theorem apply_actions_on_image_hit (sem : OpSem) (image_string_dict : String → Buffer)
    (session_id : String) (action_stack : List Action) (filename image_signature : String)
    (c : Cache) (im : Buffer)
    (h : lookupC c (session_id, action_stack, filename, image_signature) = some im) :
    apply_actions_on_image sem image_string_dict session_id action_stack
      filename image_signature c = (im, c) := by
  unfold apply_actions_on_image
  exact applyRev_hit sem image_string_dict session_id filename image_signature
    action_stack.reverse c im (by rwa [List.reverse_reverse])

/-- Base-case miss equation of `apply_actions_on_image`: the empty stack
returns the session's original image and stores it under its own key. -/
theorem apply_actions_on_image_base_miss (sem : OpSem) (image_string_dict : String → Buffer)
    (session_id filename image_signature : String) (c : Cache)
    (h : lookupC c (session_id, [], filename, image_signature) = none) :
    apply_actions_on_image sem image_string_dict session_id [] filename image_signature c =
      (image_string_dict session_id,
       insertC c (session_id, [], filename, image_signature) (image_string_dict session_id)) := by
  unfold apply_actions_on_image
  simp [applyRev, h]

/-- Step-case miss equation of `apply_actions_on_image`: on a miss for the
stack `rest ++ [a]`, it resolves `rest` through the same memoized function,
applies action `a` to that buffer, and stores the result under the full key. -/
theorem apply_actions_on_image_step_miss (sem : OpSem) (image_string_dict : String → Buffer)
    (session_id : String) (rest : List Action) (a : Action) (filename image_signature : String)
    (c : Cache)
    (h : lookupC c (session_id, rest ++ [a], filename, image_signature) = none) :
    apply_actions_on_image sem image_string_dict session_id (rest ++ [a])
        filename image_signature c =
      (applyActionOnBuffer sem a
         (apply_actions_on_image sem image_string_dict session_id rest
            filename image_signature c).1,
       insertC (apply_actions_on_image sem image_string_dict session_id rest
            filename image_signature c).2
         (session_id, rest ++ [a], filename, image_signature)
         (applyActionOnBuffer sem a
            (apply_actions_on_image sem image_string_dict session_id rest
               filename image_signature c).1)) := by
  unfold apply_actions_on_image
  have hrev : (rest ++ [a]).reverse = a :: rest.reverse := by simp
  rw [hrev]
  simp only [applyRev, List.reverse_cons, List.reverse_reverse]
  rw [h]

/-- Shared concrete fixtures for the witnesses below. -/
def sem0 : OpSem := ⟨fun _ p => p + 1, fun _ p => 2 * p⟩

/-- A concrete 2x2 buffer. -/
def buf0 : Buffer := ⟨[[1, 2], [3, 4]]⟩

/-- A concrete original-image store mapping every session to `buf0`. -/
def dict0 : String → Buffer := fun _ => buf0

/-- A concrete filter action with no selection. -/
def act0 : Action := { operation := .opName "blur", type := "filter", selectedData := none }

/-- A concrete enhance action with no selection. -/
def act1 : Action :=
  { operation := .opEnh "brightness" 1, type := "enhance", selectedData := none }

/-- C1 (amended): the resolution engine resolves a stack recursively with
memoization: on a hit for any prefix (the empty one included) the cached
buffer is returned with the cache untouched; on a miss for the empty stack
the session's original image buffer is returned and — unlike the claim's
"never cached separately" — stored in the replay cache under the empty
prefix's key; on a miss for `rest ++ [a]` the engine resolves `rest` through
the same memoized function, applies action `a` (its region resolved against
that buffer's dimensions inside `applyActionOnBuffer`), stores the result
under the full prefix's key, and returns it. -/
theorem resolve_recursive_memoized (sem : OpSem) (image_string_dict : String → Buffer)
    (session_id : String) (action_stack rest : List Action) (a : Action)
    (filename image_signature : String) (c : Cache) (im : Buffer) :
    (lookupC c (session_id, action_stack, filename, image_signature) = some im →
      apply_actions_on_image sem image_string_dict session_id action_stack
        filename image_signature c = (im, c)) ∧
    (lookupC c (session_id, [], filename, image_signature) = none →
      apply_actions_on_image sem image_string_dict session_id [] filename image_signature c =
        (image_string_dict session_id,
         insertC c (session_id, [], filename, image_signature)
           (image_string_dict session_id))) ∧
    (lookupC c (session_id, rest ++ [a], filename, image_signature) = none →
      apply_actions_on_image sem image_string_dict session_id (rest ++ [a])
          filename image_signature c =
        (applyActionOnBuffer sem a
           (apply_actions_on_image sem image_string_dict session_id rest
              filename image_signature c).1,
         insertC (apply_actions_on_image sem image_string_dict session_id rest
              filename image_signature c).2
           (session_id, rest ++ [a], filename, image_signature)
           (applyActionOnBuffer sem a
              (apply_actions_on_image sem image_string_dict session_id rest
                 filename image_signature c).1))) := by
  refine ⟨?_, ?_, ?_⟩
  · exact apply_actions_on_image_hit sem image_string_dict session_id action_stack
      filename image_signature c im
  · exact apply_actions_on_image_base_miss sem image_string_dict session_id
      filename image_signature c
  · exact apply_actions_on_image_step_miss sem image_string_dict session_id rest a
      filename image_signature c

/-- C1 witness: the three equations at concrete inputs. -/
theorem resolve_recursive_memoized_witness :
    (apply_actions_on_image sem0 dict0 "s" [act0] "f" "g"
        [(("s", [act0], "f", "g"), buf0)] = (buf0, [(("s", [act0], "f", "g"), buf0)])) ∧
    (apply_actions_on_image sem0 dict0 "s" [] "f" "g" [] =
      (dict0 "s", insertC [] ("s", [], "f", "g") (dict0 "s"))) ∧
    (apply_actions_on_image sem0 dict0 "s" ([] ++ [act0]) "f" "g" [] =
      (applyActionOnBuffer sem0 act0 (apply_actions_on_image sem0 dict0 "s" [] "f" "g" []).1,
       insertC (apply_actions_on_image sem0 dict0 "s" [] "f" "g" []).2
         ("s", [] ++ [act0], "f", "g")
         (applyActionOnBuffer sem0 act0
            (apply_actions_on_image sem0 dict0 "s" [] "f" "g" []).1))) :=
  ⟨(resolve_recursive_memoized sem0 dict0 "s" [act0] [] act0 "f" "g"
      [(("s", [act0], "f", "g"), buf0)] buf0).1 (by decide),
   (resolve_recursive_memoized sem0 dict0 "s" [] [] act0 "f" "g" [] buf0).2.1 (by decide),
   (resolve_recursive_memoized sem0 dict0 "s" [] [] act0 "f" "g" [] buf0).2.2 (by decide)⟩

/-- C1 counterexample: resolving the empty prefix on an empty cache stores
the original image under the empty prefix's own key — `resolve(0)` is cached
like any other prefix, against the claim's "never cached separately". -/
theorem resolve_base_is_cached_counterexample :
    lookupC (apply_actions_on_image sem0 dict0 "s" [] "f" "g" []).2
      ("s", [], "f", "g") = some buf0 := by decide

/-- C2 (confirmed): resolving with a cleared cache is deterministic: the
result is the pure fold of the first `i` actions over the session's original
image, hence byte-identical across repeated cleared-cache resolutions,
independent of the filename/signature components of the key and of any longer
stack built on top of the prefix. -/
theorem resolve_deterministic (sem : OpSem) (image_string_dict : String → Buffer)
    (session_id : String) (action_stack : List Action)
    (filename image_signature filename2 image_signature2 : String) (i : Nat) :
    (apply_actions_on_image sem image_string_dict session_id action_stack
        filename image_signature []).1 =
      resolveStack sem (image_string_dict session_id) action_stack ∧
    (apply_actions_on_image sem image_string_dict session_id action_stack
        filename image_signature []).1 =
      (apply_actions_on_image sem image_string_dict session_id action_stack
        filename2 image_signature2 []).1 ∧
    (apply_actions_on_image sem image_string_dict session_id (action_stack.take i)
        filename image_signature []).1 =
      resolveStack sem (image_string_dict session_id) (action_stack.take i) := by
  have h1 := apply_actions_on_image_coherent sem image_string_dict session_id action_stack
    filename image_signature [] (coherentCache_nil sem image_string_dict)
  have h2 := apply_actions_on_image_coherent sem image_string_dict session_id action_stack
    filename2 image_signature2 [] (coherentCache_nil sem image_string_dict)
  have h3 := apply_actions_on_image_coherent sem image_string_dict session_id
    (action_stack.take i) filename image_signature [] (coherentCache_nil sem image_string_dict)
  exact ⟨h1.1, h1.1.trans h2.1.symm, h3.1⟩

/-- C3 (confirmed): cache transparency — resolving against the warm cache
left by a prior identical request yields the same buffer as the cold-cache
resolution; a hit returns the stored buffer with the cache untouched; and
resolving against any coherent cache (so in particular after any eviction
from one) equals the cold-cache result, so recomputation is always valid. -/
theorem resolve_cache_transparent (sem : OpSem) (image_string_dict : String → Buffer)
    (session_id : String) (action_stack : List Action) (filename image_signature : String)
    (c : Cache) (im : Buffer) :
    (apply_actions_on_image sem image_string_dict session_id action_stack filename
        image_signature
        ((apply_actions_on_image sem image_string_dict session_id action_stack
           filename image_signature []).2)).1 =
      (apply_actions_on_image sem image_string_dict session_id action_stack
         filename image_signature []).1 ∧
    (lookupC c (session_id, action_stack, filename, image_signature) = some im →
      apply_actions_on_image sem image_string_dict session_id action_stack
        filename image_signature c = (im, c)) ∧
    (coherentCache sem image_string_dict c →
      (apply_actions_on_image sem image_string_dict session_id action_stack
          filename image_signature c).1 =
        (apply_actions_on_image sem image_string_dict session_id action_stack
           filename image_signature []).1) := by
  have hcold := apply_actions_on_image_coherent sem image_string_dict session_id action_stack
    filename image_signature [] (coherentCache_nil sem image_string_dict)
  refine ⟨?_, ?_, ?_⟩
  · have hwarm := apply_actions_on_image_coherent sem image_string_dict session_id action_stack
      filename image_signature _ hcold.2
    exact hwarm.1.trans hcold.1.symm
  · exact apply_actions_on_image_hit sem image_string_dict session_id action_stack
      filename image_signature c im
  · intro hc
    have hw := apply_actions_on_image_coherent sem image_string_dict session_id action_stack
      filename image_signature c hc
    exact hw.1.trans hcold.1.symm

/-- C3 witness: cache transparency at concrete inputs, with the hit and
coherence hypotheses discharged on a concrete cache. -/
theorem resolve_cache_transparent_witness :
    (apply_actions_on_image sem0 dict0 "s" [act0] "f" "g"
        ((apply_actions_on_image sem0 dict0 "s" [act0] "f" "g" []).2)).1 =
      (apply_actions_on_image sem0 dict0 "s" [act0] "f" "g" []).1 ∧
    apply_actions_on_image sem0 dict0 "s" [act0] "f" "g"
        [(("s", [act0], "f", "g"), buf0)] = (buf0, [(("s", [act0], "f", "g"), buf0)]) ∧
    (apply_actions_on_image sem0 dict0 "s" [act0] "f" "g" []).1 =
      (apply_actions_on_image sem0 dict0 "s" [act0] "f" "g" []).1 :=
  ⟨(resolve_cache_transparent sem0 dict0 "s" [act0] "f" "g"
      [(("s", [act0], "f", "g"), buf0)] buf0).1,
   (resolve_cache_transparent sem0 dict0 "s" [act0] "f" "g"
      [(("s", [act0], "f", "g"), buf0)] buf0).2.1 (by decide),
   (resolve_cache_transparent sem0 dict0 "s" [act0] "f" "g" [] buf0).2.2
     (by intro sid st fn sg im h; simp [lookupC] at h)⟩

/-- C4 (amended): the region resolver flips the vertical axis of a rectangle
descriptor — the y-interval `[y0, y1]` on a buffer of height `h` becomes the
row band from `h - y1` (top) to `h - y0` (bottom) — but performs no clamping
to the buffer bounds; on the spec's fixture, the display rectangle
`x ∈ [10, 50], y ∈ [20, 80]` on a 100x100 buffer resolves to top 20 and
bottom 80. -/
theorem region_rect_flip (x0 x1 y0 y1 : Int) (w h : Nat) :
    resolveZone (some (.rectSel x0 x1 y0 y1)) (w, h) =
      .zrect x0 ((h : Int) - y1) x1 ((h : Int) - y0) ∧
    resolveZone (some (.rectSel 10 50 20 80)) (100, 100) = .zrect 10 20 50 80 := by
  exact ⟨rfl, by decide⟩

/-- C4 counterexample: no clamping happens — a y-interval `[-10, 120]` on a
100x100 buffer resolves to the rectangle with top `-20` and bottom `110`,
both outside the buffer's row range `[0, 100]`. -/
theorem region_rect_no_clamp_counterexample :
    resolveZone (some (.rectSel 10 50 (-10) 120)) (100, 100) = .zrect 10 (-20) 50 110 ∧
    ((-20 : Int) < 0 ∧ (110 : Int) > 100) := by decide

/-- C5 (amended): `add_action_to_stack` always appends exactly one action,
built verbatim from its arguments, to the end of the stack; it performs no
validation and never fails — malformed selections and unrecognized kinds are
accepted, and an action whose kind is neither `filter` nor `enhance` is
silently ignored at resolution time, the buffer passing through unchanged. -/
theorem add_action_appends_unvalidated (action_stack : List Action) (operation : OpVal)
    (type : String) (selectedData : Option SelData) (sem : OpSem) (a : Action) (im : Buffer) :
    add_action_to_stack action_stack operation type selectedData =
      action_stack ++ [{ operation := operation, type := type, selectedData := selectedData }] ∧
    (add_action_to_stack action_stack operation type selectedData).length =
      action_stack.length + 1 ∧
    (a.type ≠ "filter" → a.type ≠ "enhance" → applyActionOnBuffer sem a im = im) := by
  refine ⟨rfl, by simp [add_action_to_stack], ?_⟩
  intro h1 h2
  simp [applyActionOnBuffer, h1, h2]

/-- C5 witness: the append equations at concrete inputs, and the silent
no-op of an unrecognized kind. -/
theorem add_action_appends_unvalidated_witness :
    add_action_to_stack [] (.opName "blur") "bogus" none =
      [{ operation := .opName "blur", type := "bogus", selectedData := none }] ∧
    (add_action_to_stack [] (.opName "blur") "bogus" none).length =
      ([] : List Action).length + 1 ∧
    applyActionOnBuffer sem0
      { operation := .opName "blur", type := "bogus", selectedData := none } buf0 = buf0 :=
  ⟨(add_action_appends_unvalidated [] (.opName "blur") "bogus" none sem0
      { operation := .opName "blur", type := "bogus", selectedData := none } buf0).1,
   (add_action_appends_unvalidated [] (.opName "blur") "bogus" none sem0
      { operation := .opName "blur", type := "bogus", selectedData := none } buf0).2.1,
   (add_action_appends_unvalidated [] (.opName "blur") "bogus" none sem0
      { operation := .opName "blur", type := "bogus", selectedData := none } buf0).2.2
     (by decide) (by decide)⟩

/-- C5 counterexample: an action with the unrecognized kind `bogus` is
appended all the same — the stack grows from length 0 to length 1, against
the claim's "on such failure the stack is unchanged". -/
theorem add_action_no_validation_counterexample :
    (add_action_to_stack [] (.opName "blur") "bogus" none).length = 1 ∧
    add_action_to_stack [] (.opName "blur") "bogus" none ≠ [] := by decide

theorem applyRow_getD_outside (f : Nat → Nat) (z : Zone) (y : Nat) :
    ∀ (r : List Nat) (x0 i : Nat), inZone z (x0 + i) y = false →
      (applyRow f z y x0 r).getD i 0 = r.getD i 0 := by
  intro r
  induction r with
  | nil => intro x0 i _; rfl
  | cons p t ih =>
      intro x0 i hz
      cases i with
      | zero =>
          have hz0 : inZone z x0 y = false := by simpa using hz
          simp [applyRow, hz0]
      | succ j =>
          have hz2 : inZone z ((x0 + 1) + j) y = false := by
            have : (x0 + 1) + j = x0 + (j + 1) := by omega
            rw [this]; exact hz
          simpa [applyRow] using ih (x0 + 1) j hz2

theorem applyRow_getD_inside (f : Nat → Nat) (z : Zone) (y : Nat) :
    ∀ (r : List Nat) (x0 i : Nat), inZone z (x0 + i) y = true → i < r.length →
      (applyRow f z y x0 r).getD i 0 = f (r.getD i 0) := by
  intro r
  induction r with
  | nil => intro x0 i _ hlen; cases hlen
  | cons p t ih =>
      intro x0 i hz hlen
      cases i with
      | zero =>
          have hz0 : inZone z x0 y = true := by simpa using hz
          simp [applyRow, hz0]
      | succ j =>
          have hz2 : inZone z ((x0 + 1) + j) y = true := by
            have : (x0 + 1) + j = x0 + (j + 1) := by omega
            rw [this]; exact hz
          simpa [applyRow] using ih (x0 + 1) j hz2 (by simpa using hlen)

theorem applyRows_getD (f : Nat → Nat) (z : Zone) :
    ∀ (rows : List (List Nat)) (y0 j : Nat),
      (applyRows f z y0 rows).getD j [] = applyRow f z (y0 + j) 0 (rows.getD j []) := by
  intro rows
  induction rows with
  | nil => intro y0 j; cases j <;> rfl
  | cons r t ih =>
      intro y0 j
      cases j with
      | zero => simp [applyRows]
      | succ k =>
          have := ih (y0 + 1) k
          have harith : (y0 + 1) + k = y0 + (k + 1) := by omega
          simpa [applyRows, harith] using this

theorem applyRow_id_of_outside (f : Nat → Nat) (z : Zone) (y : Nat)
    (hall : ∀ x y2, inZone z x y2 = false) :
    ∀ (r : List Nat) (x0 : Nat), applyRow f z y x0 r = r := by
  intro r
  induction r with
  | nil => intro x0; rfl
  | cons p t ih => intro x0; simp [applyRow, hall, ih]

theorem applyRows_id_of_outside (f : Nat → Nat) (z : Zone)
    (hall : ∀ x y2, inZone z x y2 = false) :
    ∀ (rows : List (List Nat)) (y0 : Nat), applyRows f z y0 rows = rows := by
  intro rows
  induction rows with
  | nil => intro y0; rfl
  | cons r t ih => intro y0; simp [applyRows, applyRow_id_of_outside f z y0 hall, ih]

/-- C7 (confirmed, spec-modelled adapter): applying one operation returns a
new buffer identical to the input at every pixel outside the resolved region
and transformed pixel-wise inside it; and with an empty resolved region (no
pixel is a member) the output buffer is byte-identical to the input, for
every operation. -/
theorem apply_frame_and_empty_noop (f : Nat → Nat) (z : Zone) (im : Buffer) (x y : Nat) :
    (inZone z x y = false → (applyZone f z im).pixel x y = im.pixel x y) ∧
    (inZone z x y = true → x < (im.rows.getD y []).length →
      (applyZone f z im).pixel x y = f (im.pixel x y)) ∧
    ((∀ x2 y2, inZone z x2 y2 = false) → applyZone f z im = im) := by
  refine ⟨?_, ?_, ?_⟩
  · intro hz
    show ((applyRows f z 0 im.rows).getD y []).getD x 0 = _
    rw [applyRows_getD]
    have : (0 : Nat) + y = y := by omega
    rw [this]
    exact applyRow_getD_outside f z y (im.rows.getD y []) 0 x (by simpa using hz)
  · intro hz hlen
    show ((applyRows f z 0 im.rows).getD y []).getD x 0 = _
    rw [applyRows_getD]
    have : (0 : Nat) + y = y := by omega
    rw [this]
    exact applyRow_getD_inside f z y (im.rows.getD y []) 0 x (by simpa using hz) hlen
  · intro hall
    show (⟨applyRows f z 0 im.rows⟩ : Buffer) = im
    rw [applyRows_id_of_outside f z hall]

/-- C7 witness: the frame property and the empty-region no-op at concrete
inputs (the rectangle `(0, 0, 0, 0)` contains no pixel). -/
theorem apply_frame_and_empty_noop_witness :
    (applyZone (fun p => p + 1) (.zrect 0 0 2 1) buf0).pixel 1 1 = buf0.pixel 1 1 ∧
    (applyZone (fun p => p + 1) (.zrect 0 0 2 1) buf0).pixel 1 0 =
      (fun p => p + 1) (buf0.pixel 1 0) ∧
    applyZone (fun p => p + 1) (.zrect 0 0 0 0) buf0 = buf0 :=
  ⟨(apply_frame_and_empty_noop (fun p => p + 1) (.zrect 0 0 2 1) buf0 1 1).1 (by decide),
   (apply_frame_and_empty_noop (fun p => p + 1) (.zrect 0 0 2 1) buf0 1 0).2.1
     (by decide) (by decide),
   (apply_frame_and_empty_noop (fun p => p + 1) (.zrect 0 0 0 0) buf0 0 0).2.2
     (by intro x2 y2; simp [inZone])⟩

/-- A heap of Python list objects holding action stacks: cell index is the
object's identity, allocation appends a cell.  This makes the source's
in-place `list.pop()` and `deepcopy` observable, which the plain value
semantics used above cannot express. -/
structure ListHeap where
  cells : List (List Action)
deriving DecidableEq, Repr

/-- Read the list object at reference `r` (unallocated reads give `[]`). -/
def readRef (h : ListHeap) (r : Nat) : List Action := h.cells.getD r []

/-- Overwrite the list object at reference `r`. -/
def writeRef (h : ListHeap) (r : Nat) (v : List Action) : ListHeap := ⟨h.cells.set r v⟩

/-- Allocate a fresh list object holding `v`; returns the new heap and the
fresh reference. -/
def allocRef (h : ListHeap) (v : List Action) : ListHeap × Nat :=
  (⟨h.cells ++ [v]⟩, h.cells.length)

theorem getD_set_self : ∀ (l : List (List Action)) (i : Nat) (v : List Action),
    i < l.length → (l.set i v).getD i [] = v := by
  intro l
  induction l with
  | nil => intro i v h; cases h
  | cons a t ih =>
      intro i v h
      cases i with
      | zero => rfl
      | succ j => simpa [List.set] using ih j v (by simpa using h)

theorem getD_set_ne : ∀ (l : List (List Action)) (i j : Nat) (v : List Action),
    i ≠ j → (l.set i v).getD j [] = l.getD j [] := by
  intro l
  induction l with
  | nil => intro i j v _; rfl
  | cons a t ih =>
      intro i j v hne
      cases i with
      | zero =>
          cases j with
          | zero => exact absurd rfl hne
          | succ k => rfl
      | succ i2 =>
          cases j with
          | zero => rfl
          | succ k => simpa [List.set] using ih i2 k v (by omega)

theorem getD_append_self : ∀ (l : List (List Action)) (v : List Action),
    (l ++ [v]).getD l.length [] = v := by
  intro l
  induction l with
  | nil => intro v; rfl
  | cons a t ih => intro v; exact ih v

theorem getD_append_lt : ∀ (l : List (List Action)) (v : List Action) (j : Nat),
    j < l.length → (l ++ [v]).getD j [] = l.getD j [] := by
  intro l
  induction l with
  | nil => intro v j h; cases h
  | cons a t ih =>
      intro v j h
      cases j with
      | zero => rfl
      | succ k => simpa using ih v k (by simpa using h)

theorem readRef_alloc_fresh (h : ListHeap) (v : List Action) :
    readRef (allocRef h v).1 (allocRef h v).2 = v := by
  simp [readRef, allocRef, getD_append_self]

theorem readRef_write_self (h : ListHeap) (r : Nat) (v : List Action)
    (hr : r < h.cells.length) : readRef (writeRef h r v) r = v := by
  show (h.cells.set r v).getD r [] = v
  exact getD_set_self _ _ _ hr

/-- `apply_actions_on_image` over the list-object heap, following the source
body (app.py lines 213-271) in its handling of the stack object: line 214
deep-copies the caller's list into a fresh object, the base case (lines
216-219) returns without touching it further, and otherwise line 222 pops
the copy in place before passing the same object to the recursive call.
The memoize cache and the pixel work never touch list objects, so the cache
is elided here (this is the worst case for mutation: every level runs its
body). -/
def applyActionsHeap (sem : OpSem) (image_string_dict : String → Buffer)
    (session_id : String) (h : ListHeap) (r : Nat) : Buffer × ListHeap :=
  if hE : readRef (allocRef h (readRef h r)).1 (allocRef h (readRef h r)).2 = [] then
    (image_string_dict session_id, (allocRef h (readRef h r)).1)
  else
    let last_action :=
      (readRef (allocRef h (readRef h r)).1 (allocRef h (readRef h r)).2).getLast hE
    let res := applyActionsHeap sem image_string_dict session_id
      (writeRef (allocRef h (readRef h r)).1 (allocRef h (readRef h r)).2
        (readRef (allocRef h (readRef h r)).1 (allocRef h (readRef h r)).2).dropLast)
      (allocRef h (readRef h r)).2
    (applyActionOnBuffer sem last_action res.1, res.2)
termination_by (readRef h r).length
decreasing_by
  rw [readRef_write_self _ _ _
    (show (allocRef h (readRef h r)).2 < (allocRef h (readRef h r)).1.cells.length by
      simp [allocRef])]
  rw [readRef_alloc_fresh] at hE ⊢
  have hpos : 0 < (readRef h r).length := List.length_pos.mpr hE
  simp only [List.length_dropLast]
  omega

/-- Frame property of the heap resolver: no pre-existing list object is ever
written — only the fresh copies allocated inside the call are mutated. -/
theorem applyActionsHeap_frame (sem : OpSem) (image_string_dict : String → Buffer)
    (session_id : String) :
    ∀ (n : Nat) (h : ListHeap) (r : Nat), (readRef h r).length ≤ n →
      ∀ j, j < h.cells.length →
        readRef (applyActionsHeap sem image_string_dict session_id h r).2 j = readRef h j := by
  have hfr : ∀ (h : ListHeap) (v : List Action) (j : Nat), j < h.cells.length →
      readRef (allocRef h v).1 j = readRef h j := by
    intro h v j hj
    simp only [readRef, allocRef]
    exact getD_append_lt h.cells v j hj
  have hfresh : ∀ (h : ListHeap) (v : List Action),
      readRef (allocRef h v).1 (allocRef h v).2 = v := readRef_alloc_fresh
  intro n
  induction n with
  | zero =>
      intro h r hn j hj
      have hnil : readRef h r = [] := by
        cases hmt : readRef h r with
        | nil => rfl
        | cons a t => rw [hmt] at hn; simp at hn
      rw [applyActionsHeap]
      rw [dif_pos (by rw [hfresh]; exact hnil)]
      exact hfr h (readRef h r) j hj
  | succ m ih =>
      intro h r hn j hj
      rw [applyActionsHeap]
      by_cases hE : readRef h r = []
      · rw [dif_pos (by rw [hfresh]; exact hE)]
        exact hfr h (readRef h r) j hj
      · rw [dif_neg (by rw [hfresh]; exact hE)]
        have hfreshlt : (allocRef h (readRef h r)).2 <
            (allocRef h (readRef h r)).1.cells.length := by
          simp [allocRef]
        have hmeas : (readRef
            (writeRef (allocRef h (readRef h r)).1 (allocRef h (readRef h r)).2
              (readRef (allocRef h (readRef h r)).1
                (allocRef h (readRef h r)).2).dropLast)
            (allocRef h (readRef h r)).2).length ≤ m := by
          rw [readRef_write_self _ _ _ hfreshlt, hfresh]
          have hpos : 0 < (readRef h r).length := List.length_pos.mpr hE
          simp only [List.length_dropLast]
          omega
        have hj2 : j < (writeRef (allocRef h (readRef h r)).1 (allocRef h (readRef h r)).2
            (readRef (allocRef h (readRef h r)).1
              (allocRef h (readRef h r)).2).dropLast).cells.length := by
          have : (writeRef (allocRef h (readRef h r)).1 (allocRef h (readRef h r)).2
              (readRef (allocRef h (readRef h r)).1
                (allocRef h (readRef h r)).2).dropLast).cells.length
              = h.cells.length + 1 := by
            simp [writeRef, allocRef]
          omega
        have hstep := ih _ _ hmeas j hj2
        show readRef (applyActionsHeap sem image_string_dict session_id _ _).2 j = readRef h j
        rw [hstep]
        have hne : (allocRef h (readRef h r)).2 ≠ j := by
          simp only [allocRef]
          omega
        have hwr : readRef (writeRef (allocRef h (readRef h r)).1
            (allocRef h (readRef h r)).2
            (readRef (allocRef h (readRef h r)).1
              (allocRef h (readRef h r)).2).dropLast) j
            = readRef (allocRef h (readRef h r)).1 j := by
          simp only [readRef, writeRef]
          exact getD_set_ne _ _ _ _ hne
        rw [hwr]
        exact hfr h (readRef h r) j hj

/-- C9 (confirmed): resolving leaves the caller's action-stack object
unchanged — `apply_actions_on_image` deep-copies the stack before popping,
so after the call the caller's list object holds the same sequence of
actions as before. -/
theorem resolve_preserves_caller_stack (sem : OpSem) (image_string_dict : String → Buffer)
    (session_id : String) (h : ListHeap) (r : Nat) (hr : r < h.cells.length) :
    readRef (applyActionsHeap sem image_string_dict session_id h r).2 r = readRef h r :=
  applyActionsHeap_frame sem image_string_dict session_id (readRef h r).length h r
    (Nat.le_refl _) r hr

/-- C9 witness: a concrete two-action stack object survives resolution. -/
theorem resolve_preserves_caller_stack_witness :
    readRef (applyActionsHeap sem0 dict0 "s" ⟨[[act0, act1]]⟩ 0).2 0 =
      readRef ⟨[[act0, act1]]⟩ 0 :=
  resolve_preserves_caller_stack sem0 dict0 "s" ⟨[[act0, act1]]⟩ 0 (by decide)

/-- The stack-building else-branch of `update_graph_interactive_image`
(app.py lines 350-361, taken when the stored filename is unchanged): if a
filter name is selected, a `filter` action is appended; if an enhancement
name is selected, an `enhance` action with the slider factor is appended
after it; both receive the current `selectedData`. -/
def update_stack_actions (action_stack : List Action) (filters enhance : Option String)
    (enhancement_factor : Int) (selectedData : Option SelData) : List Action :=
  let s1 := match filters with
    | some f => add_action_to_stack action_stack (.opName f) "filter" selectedData
    | none => action_stack
  match enhance with
  | some e => add_action_to_stack s1 (.opEnh e enhancement_factor) "enhance" selectedData
  | none => s1

/-- C10 (confirmed): with the stored filename unchanged and both a filter
and an enhancement selected, exactly two actions are appended in one
request — the filter action first, then the enhancement action, both
carrying the same selection — and the returned buffer is the enhancement
applied after the filter on top of the previous stack's resolution. -/
theorem run_operation_appends_filter_then_enhance (action_stack : List Action)
    (f e : String) (factor : Int) (selectedData : Option SelData) (sem : OpSem)
    (image_string_dict : String → Buffer) (session_id filename image_signature : String)
    (c : Cache) :
    update_stack_actions action_stack (some f) (some e) factor selectedData =
      action_stack ++
        [{ operation := .opName f, type := "filter", selectedData := selectedData },
         { operation := .opEnh e factor, type := "enhance", selectedData := selectedData }] ∧
    (update_stack_actions action_stack (some f) (some e) factor selectedData).length =
      action_stack.length + 2 ∧
    (coherentCache sem image_string_dict c →
      (apply_actions_on_image sem image_string_dict session_id
          (update_stack_actions action_stack (some f) (some e) factor selectedData)
          filename image_signature c).1 =
        applyActionOnBuffer sem
          { operation := .opEnh e factor, type := "enhance", selectedData := selectedData }
          (applyActionOnBuffer sem
            { operation := .opName f, type := "filter", selectedData := selectedData }
            (resolveStack sem (image_string_dict session_id) action_stack))) := by
  refine ⟨by simp [update_stack_actions, add_action_to_stack], ?_, ?_⟩
  · simp [update_stack_actions, add_action_to_stack]
  · intro hc
    have h := apply_actions_on_image_coherent sem image_string_dict session_id
      (update_stack_actions action_stack (some f) (some e) factor selectedData)
      filename image_signature c hc
    rw [h.1]
    have hs : update_stack_actions action_stack (some f) (some e) factor selectedData =
        (action_stack ++
          [{ operation := .opName f, type := "filter", selectedData := selectedData }]) ++
          [{ operation := .opEnh e factor, type := "enhance", selectedData := selectedData }] := by
      simp [update_stack_actions, add_action_to_stack]
    rw [hs, resolveStack_concat, resolveStack_concat]

/-- C10 witness: the two appends and the composed resolution at concrete
inputs, against the empty (coherent) cache. -/
theorem run_operation_appends_filter_then_enhance_witness :
    update_stack_actions [] (some "blur") (some "brightness") 1 none =
      [{ operation := .opName "blur", type := "filter", selectedData := none },
       { operation := .opEnh "brightness" 1, type := "enhance", selectedData := none }] ∧
    (update_stack_actions [] (some "blur") (some "brightness") 1 none).length = 2 ∧
    (apply_actions_on_image sem0 dict0 "s"
        (update_stack_actions [] (some "blur") (some "brightness") 1 none) "f" "g" []).1 =
      applyActionOnBuffer sem0
        { operation := .opEnh "brightness" 1, type := "enhance", selectedData := none }
        (applyActionOnBuffer sem0
          { operation := .opName "blur", type := "filter", selectedData := none }
          (resolveStack sem0 (dict0 "s") [])) :=
  ⟨(run_operation_appends_filter_then_enhance [] "blur" "brightness" 1 none sem0 dict0
      "s" "f" "g" []).1,
   (run_operation_appends_filter_then_enhance [] "blur" "brightness" 1 none sem0 dict0
      "s" "f" "g" []).2.1,
   (run_operation_appends_filter_then_enhance [] "blur" "brightness" 1 none sem0 dict0
      "s" "f" "g" []).2.2 (by intro sid st fn sg im h; simp [lookupC] at h)⟩

mutual
/-- Python JSON values, as carried by `div-storage` and the action stack:
`json.dumps`/`json.loads` in app.py lines 327-328 and 380-384 move the stack
through this type.  Objects are key-ordered entry lists, mirroring Python
dicts, which remember insertion order and serialize in it.  (`Json`, `JArr`
and `JObj` are mutually inductive so that every function on them can be
compiled by structural recursion.) -/
inductive Json where
  | jnull : Json
  | jbool (b : Bool) : Json
  | jnum (n : Int) : Json
  | jstr (s : String) : Json
  | jarr (elems : JArr) : Json
  | jobj (entries : JObj) : Json
deriving DecidableEq
inductive JArr where
  | anil : JArr
  | acons (hd : Json) (tl : JArr) : JArr
deriving DecidableEq
inductive JObj where
  | onil : JObj
  | ocons (key : String) (val : Json) (tl : JObj) : JObj
deriving DecidableEq
end

/-- The character for decimal digit `d`. -/
def digitChar (d : Nat) : Char := Char.ofNat (48 + d)

/-- Decimal digits of `n`, most significant first (`fuel`-bounded division
recursion; `fuel > n` always suffices). -/
def natDigits : Nat → Nat → List Nat
  | 0, _ => []
  | f + 1, n => if n < 10 then [n] else natDigits f (n / 10) ++ [n % 10]

/-- Decimal rendering of a natural number, as Python `repr`. -/
def renderNat (n : Nat) : List Char := (natDigits (n + 1) n).map digitChar

/-- Decimal rendering of an integer, as Python `repr`. -/
def renderInt (n : Int) : List Char :=
  if n < 0 then '-' :: renderNat n.natAbs else renderNat n.toNat

/-- JSON string-body escaping.  Python's `json.dumps` escapes the quote, the
backslash and control characters; the model escapes the two that decide
unambiguous parsing (no field of the action stack carries control
characters). -/
def escChars : List Char → List Char
  | [] => []
  | c :: t => if c = '"' ∨ c = '\\' then '\\' :: c :: escChars t else c :: escChars t

/-- A JSON string literal: quote, escaped body, quote. -/
def renderStr (s : String) : List Char := '"' :: (escChars s.data ++ ['"'])

mutual
/-- `json.dumps` with its default separators `(', ', ': ')` and no
`sort_keys`: object keys are emitted in stored (insertion) order. -/
def renderJson : Json → List Char
  | .jnull => ['n', 'u', 'l', 'l']
  | .jbool true => ['t', 'r', 'u', 'e']
  | .jbool false => ['f', 'a', 'l', 's', 'e']
  | .jnum n => renderInt n
  | .jstr s => renderStr s
  | .jarr xs => '[' :: (renderArr xs ++ [']'])
  | .jobj kvs => '\x7b' :: (renderObj kvs ++ ['\x7d'])
def renderArr : JArr → List Char
  | .anil => []
  | .acons h .anil => renderJson h
  | .acons h (.acons h2 t) => renderJson h ++ ',' :: ' ' :: renderArr (.acons h2 t)
def renderObj : JObj → List Char
  | .onil => []
  | .ocons k v .onil => renderStr k ++ ':' :: ' ' :: renderJson v
  | .ocons k v (.ocons k2 v2 t) =>
      renderStr k ++ ':' :: ' ' :: renderJson v ++ ',' :: ' ' :: renderObj (.ocons k2 v2 t)
end

/-- `json.dumps` of a value, as a string. -/
def dumps (j : Json) : String := String.mk (renderJson j)

/-- Number of elements of a JSON array. -/
def arrCount : JArr → Nat
  | .anil => 0
  | .acons _ t => arrCount t + 1

/-- Number of entries of a JSON object. -/
def objCount : JObj → Nat
  | .onil => 0
  | .ocons _ _ t => objCount t + 1

/-- Maximal run of decimal digits, accumulated into a value. -/
def parseDigitsAux : Nat → List Char → Nat × List Char
  | acc, [] => (acc, [])
  | acc, c :: rest =>
      if c.isDigit then parseDigitsAux (10 * acc + (c.toNat - 48)) rest else (acc, c :: rest)

/-- An integer token: optional minus sign, then at least one digit. -/
def parseIntTok : List Char → Option (Int × List Char)
  | [] => none
  | c :: rest =>
      if c = '-' then
        match rest with
        | [] => none
        | d :: r2 =>
            if d.isDigit then
              some (-(((parseDigitsAux 0 (d :: r2)).1 : Int)), (parseDigitsAux 0 (d :: r2)).2)
            else none
      else if c.isDigit then
        some (((parseDigitsAux 0 (c :: rest)).1 : Int), (parseDigitsAux 0 (c :: rest)).2)
      else none

/-- Unescape one escaped character. -/
def unescChar (c : Char) : Option Char :=
  if c = '"' then some '"' else if c = '\\' then some '\\' else none

/-- String body: characters up to the closing quote, honouring escapes. -/
def parseStrBody : List Char → Option (List Char × List Char)
  | [] => none
  | c :: rest =>
      if c = '"' then some ([], rest)
      else if c = '\\' then
        match rest with
        | [] => none
        | d :: r2 =>
            match unescChar d, parseStrBody r2 with
            | some u, some (s, r3) => some (u :: s, r3)
            | _, _ => none
      else
        match parseStrBody rest with
        | some (s, r3) => some (c :: s, r3)
        | none => none

/-- Comma-separated values up to a closing `]`, element parsing delegated to
`pv`. -/
def parseItemsWith (pv : List Char → Option (Json × List Char)) :
    Nat → List Char → Option (JArr × List Char)
  | 0, _ => none
  | f + 1, cs =>
      match pv cs with
      | none => none
      | some (j, r) =>
          match r with
          | [] => none
          | c :: r2 =>
              if c = ',' then
                match r2 with
                | ' ' :: r3 =>
                    match parseItemsWith pv f r3 with
                    | some (js, r4) => some (.acons j js, r4)
                    | none => none
                | _ => none
              else if c = ']' then some (.acons j .anil, r2)
              else none

/-- Comma-separated `"key": value` fields up to a closing brace, value
parsing delegated to `pv`. -/
def parseFieldsWith (pv : List Char → Option (Json × List Char)) :
    Nat → List Char → Option (JObj × List Char)
  | 0, _ => none
  | f + 1, cs =>
      match cs with
      | '"' :: cs2 =>
          match parseStrBody cs2 with
          | none => none
          | some (k, r) =>
              match r with
              | ':' :: ' ' :: r2 =>
                  match pv r2 with
                  | none => none
                  | some (v, r3) =>
                      match r3 with
                      | [] => none
                      | c :: r4 =>
                          if c = ',' then
                            match r4 with
                            | ' ' :: r5 =>
                                match parseFieldsWith pv f r5 with
                                | some (kvs, r6) => some (.ocons (String.mk k) v kvs, r6)
                                | none => none
                            | _ => none
                          else if c = '\x7d' then some (.ocons (String.mk k) v .onil, r4)
                          else none
              | _ => none
      | _ => none

/-- JSON value parser over the exact grammar `renderJson` emits (which is
how the serialized stack travels: the client hands `div-storage` back
verbatim, app.py line 327). -/
def parseJ : Nat → List Char → Option (Json × List Char)
  | 0, _ => none
  | f + 1, cs =>
      match cs with
      | [] => none
      | c :: cs2 =>
          if c = 'n' then
            match cs2 with
            | 'u' :: 'l' :: 'l' :: r => some (.jnull, r)
            | _ => none
          else if c = 't' then
            match cs2 with
            | 'r' :: 'u' :: 'e' :: r => some (.jbool true, r)
            | _ => none
          else if c = 'f' then
            match cs2 with
            | 'a' :: 'l' :: 's' :: 'e' :: r => some (.jbool false, r)
            | _ => none
          else if c = '"' then
            match parseStrBody cs2 with
            | some (s, r) => some (.jstr (String.mk s), r)
            | none => none
          else if c = '[' then
            match cs2 with
            | [] => none
            | c2 :: r2 =>
                if c2 = ']' then some (.jarr .anil, r2)
                else
                  match parseItemsWith (fun l => parseJ f l) f (c2 :: r2) with
                  | some (js, r3) => some (.jarr js, r3)
                  | none => none
          else if c = '\x7b' then
            match cs2 with
            | [] => none
            | c2 :: r2 =>
                if c2 = '\x7d' then some (.jobj .onil, r2)
                else
                  match parseFieldsWith (fun l => parseJ f l) f (c2 :: r2) with
                  | some (kvs, r3) => some (.jobj kvs, r3)
                  | none => none
          else
            match parseIntTok (c :: cs2) with
            | some (n, r) => some (.jnum n, r)
            | none => none

/-- `json.loads`: parse the whole string as one value. -/
def loads (s : String) : Option Json :=
  match parseJ (s.data.length + 1) s.data with
  | some (j, []) => some j
  | _ => none

/-- `true` when the stream does not begin with a decimal digit (so a maximal
digit run just before it cannot swallow into it). -/
def noDigitStart : List Char → Bool
  | [] => true
  | c :: _ => !c.isDigit

theorem digitChar_facts (d : Nat) (hd : d < 10) :
    (digitChar d).isDigit = true ∧ (digitChar d).toNat - 48 = d ∧
    digitChar d ≠ '-' ∧ digitChar d ≠ 'n' ∧ digitChar d ≠ 't' ∧ digitChar d ≠ 'f' ∧
    digitChar d ≠ '"' ∧ digitChar d ≠ '[' ∧ digitChar d ≠ ']' ∧
    digitChar d ≠ '\x7b' ∧ digitChar d ≠ '\x7d' := by
  interval_cases d <;> exact (by decide)

theorem natDigits_all_lt : ∀ (f n : Nat), ∀ d ∈ natDigits f n, d < 10 := by
  intro f
  induction f with
  | zero => intro n d hm; simp [natDigits] at hm
  | succ g ih =>
      intro n d hm
      by_cases h10 : n < 10
      · simp [natDigits, h10] at hm
        omega
      · simp [natDigits, h10] at hm
        rcases hm with hm | hm
        · exact ih (n / 10) d hm
        · omega

theorem natDigits_ne_nil : ∀ (f n : Nat), 0 < f → natDigits f n ≠ [] := by
  intro f n hf
  cases f with
  | zero => omega
  | succ g =>
      by_cases h10 : n < 10 <;> simp [natDigits, h10]

/-- Value of a digit list under a left accumulator. -/
def digitsVal (acc : Nat) (ds : List Nat) : Nat := ds.foldl (fun a d => 10 * a + d) acc

theorem digitsVal_append_single (acc : Nat) (l : List Nat) (d : Nat) :
    digitsVal acc (l ++ [d]) = 10 * digitsVal acc l + d := by
  simp [digitsVal, List.foldl_append]

theorem digitsVal_natDigits : ∀ (n : Nat), ∀ (f acc : Nat), n < f →
    digitsVal acc (natDigits f n) = acc * 10 ^ (natDigits f n).length + n := by
  intro n
  induction n using Nat.strong_induction_on with
  | _ n ih =>
      intro f acc hf
      cases f with
      | zero => omega
      | succ g =>
          by_cases h10 : n < 10
          · simp [natDigits, h10, digitsVal]
            omega
          · have hrec : natDigits (g + 1) n = natDigits g (n / 10) ++ [n % 10] := by
              simp [natDigits, h10]
            rw [hrec, digitsVal_append_single]
            have hlt : n / 10 < n := Nat.div_lt_self (by omega) (by omega)
            have hfg : n / 10 < g := by omega
            rw [ih (n / 10) hlt g acc hfg]
            have hlen : (natDigits g (n / 10) ++ [n % 10]).length =
                (natDigits g (n / 10)).length + 1 := by simp
            rw [hlen, pow_succ, ← Nat.mul_assoc]
            omega

theorem parseDigitsAux_digits : ∀ (ds : List Nat), (∀ d ∈ ds, d < 10) →
    ∀ (acc : Nat) (rest : List Char), noDigitStart rest = true →
    parseDigitsAux acc (ds.map digitChar ++ rest) = (digitsVal acc ds, rest) := by
  intro ds
  induction ds with
  | nil =>
      intro _ acc rest hrest
      cases rest with
      | nil => simp [parseDigitsAux, digitsVal]
      | cons c r =>
          simp [noDigitStart] at hrest
          simp [parseDigitsAux, hrest, digitsVal]
  | cons d t ih =>
      intro hall acc rest hrest
      have hd : d < 10 := hall d (by simp)
      obtain ⟨hdig, htn, _⟩ := digitChar_facts d hd
      simp only [List.map_cons, List.cons_append, parseDigitsAux, hdig, if_true, htn]
      have := ih (fun e he => hall e (by simp [he])) (10 * acc + d) rest hrest
      rw [List.append_eq, this]
      rfl

theorem parseDigitsAux_renderNat (n : Nat) (rest : List Char)
    (hrest : noDigitStart rest = true) :
    parseDigitsAux 0 (renderNat n ++ rest) = (n, rest) := by
  rw [renderNat, parseDigitsAux_digits _ (natDigits_all_lt (n + 1) n) 0 rest hrest,
    digitsVal_natDigits n (n + 1) 0 (by omega)]
  simp

theorem renderNat_head (n : Nat) : ∃ (d : Nat) (ds : List Nat), d < 10 ∧
    renderNat n = digitChar d :: ds.map digitChar := by
  obtain ⟨d, ds, hds⟩ := List.exists_cons_of_ne_nil (natDigits_ne_nil (n + 1) n (by omega))
  refine ⟨d, ds, ?_, by rw [renderNat, hds]; rfl⟩
  exact natDigits_all_lt (n + 1) n d (by rw [hds]; simp)

theorem parseIntTok_renderInt (n : Int) (rest : List Char)
    (hrest : noDigitStart rest = true) :
    parseIntTok (renderInt n ++ rest) = some (n, rest) := by
  by_cases hn : n < 0
  · obtain ⟨d, ds, hd, hhead⟩ := renderNat_head n.natAbs
    rw [renderInt, if_pos hn, List.cons_append, hhead]
    obtain ⟨hdig, _⟩ := digitChar_facts d hd
    simp only [parseIntTok, List.cons_append, hdig, if_true]
    rw [show digitChar d :: (ds.map digitChar ++ rest) =
      renderNat n.natAbs ++ rest by rw [hhead]; rfl]
    rw [parseDigitsAux_renderNat n.natAbs rest hrest]
    simp only []
    congr 1
    congr 1
    omega
  · obtain ⟨d, ds, hd, hhead⟩ := renderNat_head n.toNat
    rw [renderInt, if_neg hn, hhead]
    obtain ⟨hdig, _, hneg, _⟩ := digitChar_facts d hd
    simp only [parseIntTok, List.cons_append, hdig, if_true, if_neg hneg]
    rw [show digitChar d :: (ds.map digitChar ++ rest) =
      renderNat n.toNat ++ rest by rw [hhead]; rfl]
    rw [parseDigitsAux_renderNat n.toNat rest hrest]
    simp only []
    congr 1
    congr 1
    omega

theorem parseStrBody_esc : ∀ (s : List Char) (rest : List Char),
    parseStrBody (escChars s ++ '"' :: rest) = some (s, rest) := by
  intro s
  induction s with
  | nil =>
      intro rest
      show parseStrBody ('"' :: rest) = some ([], rest)
      rw [parseStrBody.eq_def]
      simp
  | cons c t ih =>
      intro rest
      by_cases hc : c = '"' ∨ c = '\\'
      · rw [show escChars (c :: t) = '\\' :: c :: escChars t by simp [escChars, hc]]
        have hu : unescChar c = some c := by
          rcases hc with hc | hc <;> simp [unescChar, hc]
        simp only [List.cons_append]
        rw [parseStrBody.eq_def]
        simp [hu, ih rest]
      · push_neg at hc
        rw [show escChars (c :: t) = c :: escChars t by simp [escChars, hc.1, hc.2]]
        simp only [List.cons_append]
        rw [parseStrBody.eq_def]
        simp only [if_neg hc.1, if_neg hc.2]
        simp [ih rest]

/-- Every rendered JSON value is nonempty, and its first character is
neither a closing bracket nor a closing brace. -/
theorem renderJson_head (j : Json) :
    ∃ c l, renderJson j = c :: l ∧ c ≠ ']' ∧ c ≠ '\x7d' := by
  cases j with
  | jnull => exact ⟨'n', _, rfl, by decide, by decide⟩
  | jbool b =>
      cases b with
      | false => exact ⟨'f', _, rfl, by decide, by decide⟩
      | true => exact ⟨'t', _, rfl, by decide, by decide⟩
  | jnum n =>
      by_cases hn : n < 0
      · refine ⟨'-', renderNat n.natAbs, ?_, by decide, by decide⟩
        simp [renderJson, renderInt, hn]
      · obtain ⟨d, ds, hd, hhead⟩ := renderNat_head n.toNat
        obtain ⟨_, _, _, _, _, _, _, _, hrb1, _, hrb2⟩ := digitChar_facts d hd
        refine ⟨digitChar d, ds.map digitChar, ?_, hrb1, hrb2⟩
        rw [show renderJson (.jnum n) = renderInt n from rfl, renderInt, if_neg hn, hhead]
  | jstr s => exact ⟨'"', _, rfl, by decide, by decide⟩
  | jarr xs => exact ⟨'[', _, rfl, by decide, by decide⟩
  | jobj kvs => exact ⟨'\x7b', _, rfl, by decide, by decide⟩

theorem renderJson_ne_nil (j : Json) : renderJson j ≠ [] := by
  obtain ⟨c, l, hcl, _⟩ := renderJson_head j
  simp [hcl]

theorem renderJson_length_pos (j : Json) : 0 < (renderJson j).length := by
  obtain ⟨c, l, hcl, _⟩ := renderJson_head j
  simp [hcl]

theorem arrCount_le_renderArr : ∀ (xs : JArr), arrCount xs ≤ (renderArr xs).length
  | .anil => by simp [arrCount, renderArr]
  | .acons h .anil => by
      have := renderJson_length_pos h
      simp only [arrCount, renderArr]
      omega
  | .acons h (.acons h2 t2) => by
      have ih := arrCount_le_renderArr (.acons h2 t2)
      simp only [arrCount, renderArr, List.length_append, List.length_cons] at ih ⊢
      omega

theorem objCount_le_renderObj : ∀ (kvs : JObj), objCount kvs ≤ (renderObj kvs).length
  | .onil => by simp [objCount, renderObj]
  | .ocons k v .onil => by
      simp [objCount, renderObj, renderStr]
  | .ocons k v (.ocons k2 v2 t2) => by
      have ih := objCount_le_renderObj (.ocons k2 v2 t2)
      simp only [objCount, renderObj, List.length_append, List.length_cons] at ih ⊢
      simp [renderStr]
      omega

mutual
/-- Structural size of a JSON value, the induction measure for the
round-trip proof. -/
def jsize : Json → Nat
  | .jnull => 1
  | .jbool _ => 1
  | .jnum _ => 1
  | .jstr _ => 1
  | .jarr xs => asize xs + 1
  | .jobj o => osize o + 1
def asize : JArr → Nat
  | .anil => 1
  | .acons h t => jsize h + asize t + 1
def osize : JObj → Nat
  | .onil => 1
  | .ocons _ v t => jsize v + osize t + 1
end

theorem jsize_pos (j : Json) : 0 < jsize j := by
  cases j <;> simp [jsize]

theorem asize_pos (xs : JArr) : 0 < asize xs := by
  cases xs <;> simp [asize]

theorem osize_pos (kvs : JObj) : 0 < osize kvs := by
  cases kvs <;> simp [osize]

theorem renderArr_cons (h : Json) (t : JArr) :
    ∃ tl, renderArr (.acons h t) = renderJson h ++ tl := by
  cases t with
  | anil => exact ⟨[], by simp [renderArr]⟩
  | acons h2 t2 => exact ⟨',' :: ' ' :: renderArr (.acons h2 t2), by simp [renderArr]⟩

theorem parseJ_step_null (f : Nat) (r : List Char) :
    parseJ (f + 1) ('n' :: 'u' :: 'l' :: 'l' :: r) = some (.jnull, r) := rfl

theorem parseJ_step_true (f : Nat) (r : List Char) :
    parseJ (f + 1) ('t' :: 'r' :: 'u' :: 'e' :: r) = some (.jbool true, r) := rfl

theorem parseJ_step_false (f : Nat) (r : List Char) :
    parseJ (f + 1) ('f' :: 'a' :: 'l' :: 's' :: 'e' :: r) = some (.jbool false, r) := rfl

theorem parseJ_step_str (f : Nat) (l : List Char) :
    parseJ (f + 1) ('"' :: l) =
      (match parseStrBody l with
       | some (s, r) => some (.jstr (String.mk s), r)
       | none => none) := rfl

theorem parseJ_step_minus (f : Nat) (l : List Char) :
    parseJ (f + 1) ('-' :: l) =
      (match parseIntTok ('-' :: l) with
       | some (nv, r) => some (.jnum nv, r)
       | none => none) := rfl

theorem parseJ_step_digit (f : Nat) (d : Nat) (hd : d < 10) (l : List Char) :
    parseJ (f + 1) (digitChar d :: l) =
      (match parseIntTok (digitChar d :: l) with
       | some (nv, r) => some (.jnum nv, r)
       | none => none) := by
  interval_cases d <;> rfl

theorem parseJ_step_arr_nil (f : Nat) (r : List Char) :
    parseJ (f + 1) ('[' :: ']' :: r) = some (.jarr .anil, r) := rfl

theorem parseJ_step_arr (f : Nat) (c2 : Char) (r2 : List Char) :
    parseJ (f + 1) ('[' :: c2 :: r2) =
      (if c2 = ']' then some (.jarr .anil, r2)
       else
        match parseItemsWith (fun l => parseJ f l) f (c2 :: r2) with
        | some (js, r3) => some (.jarr js, r3)
        | none => none) := rfl

theorem parseJ_step_obj_nil (f : Nat) (r : List Char) :
    parseJ (f + 1) ('\x7b' :: '\x7d' :: r) = some (.jobj .onil, r) := rfl

theorem parseJ_step_obj (f : Nat) (c2 : Char) (r2 : List Char) :
    parseJ (f + 1) ('\x7b' :: c2 :: r2) =
      (if c2 = '\x7d' then some (.jobj .onil, r2)
       else
        match parseFieldsWith (fun l => parseJ f l) f (c2 :: r2) with
        | some (kvs, r3) => some (.jobj kvs, r3)
        | none => none) := rfl

theorem parseItemsWith_step (pv : List Char → Option (Json × List Char))
    (fi : Nat) (cs : List Char) :
    parseItemsWith pv (fi + 1) cs =
      (match pv cs with
       | none => none
       | some (j, r) =>
          match r with
          | [] => none
          | c :: r2 =>
              if c = ',' then
                match r2 with
                | ' ' :: r3 =>
                    match parseItemsWith pv fi r3 with
                    | some (js, r4) => some (.acons j js, r4)
                    | none => none
                | _ => none
              else if c = ']' then some (.acons j .anil, r2)
              else none) := rfl

theorem parseFieldsWith_step (pv : List Char → Option (Json × List Char))
    (fi : Nat) (cs : List Char) :
    parseFieldsWith pv (fi + 1) cs =
      (match cs with
       | '"' :: cs2 =>
          match parseStrBody cs2 with
          | none => none
          | some (k, r) =>
              match r with
              | ':' :: ' ' :: r2 =>
                  match pv r2 with
                  | none => none
                  | some (v, r3) =>
                      match r3 with
                      | [] => none
                      | c :: r4 =>
                          if c = ',' then
                            match r4 with
                            | ' ' :: r5 =>
                                match parseFieldsWith pv fi r5 with
                                | some (kvs, r6) => some (.ocons (String.mk k) v kvs, r6)
                                | none => none
                            | _ => none
                          else if c = '\x7d' then some (.ocons (String.mk k) v .onil, r4)
                          else none
              | _ => none
       | _ => none) := rfl

theorem renderJson_jnull_eq : renderJson .jnull = ['n', 'u', 'l', 'l'] := by
  rw [renderJson.eq_def]

theorem renderJson_jtrue_eq : renderJson (.jbool true) = ['t', 'r', 'u', 'e'] := by
  rw [renderJson.eq_def]

theorem renderJson_jfalse_eq : renderJson (.jbool false) = ['f', 'a', 'l', 's', 'e'] := by
  rw [renderJson.eq_def]

theorem renderJson_jnum_eq (n : Int) : renderJson (.jnum n) = renderInt n := by
  rw [renderJson.eq_def]

theorem renderJson_jstr_eq (s : String) : renderJson (.jstr s) = renderStr s := by
  rw [renderJson.eq_def]

theorem renderJson_jarr_eq (xs : JArr) :
    renderJson (.jarr xs) = '[' :: (renderArr xs ++ [']']) := by
  rw [renderJson.eq_def]

theorem renderJson_jobj_eq (kvs : JObj) :
    renderJson (.jobj kvs) = '\x7b' :: (renderObj kvs ++ ['\x7d']) := by
  rw [renderJson.eq_def]

/-- Round trip of `parseJ` against `renderJson`, with the element-list and
field-list loops: one big conjunction proved by induction on an upper bound
of the structural size. -/
theorem parse_render_main : ∀ (n : Nat),
    (∀ (j : Json) (f : Nat) (rest : List Char), jsize j ≤ n →
      (renderJson j).length < f → noDigitStart rest = true →
      parseJ f (renderJson j ++ rest) = some (j, rest)) ∧
    (∀ (xs : JArr) (f fi : Nat) (rest : List Char), asize xs ≤ n → xs ≠ .anil →
      arrCount xs ≤ fi → (renderArr xs).length < f →
      parseItemsWith (fun l => parseJ f l) fi (renderArr xs ++ ']' :: rest) =
        some (xs, rest)) ∧
    (∀ (kvs : JObj) (f fi : Nat) (rest : List Char), osize kvs ≤ n → kvs ≠ .onil →
      objCount kvs ≤ fi → (renderObj kvs).length < f →
      parseFieldsWith (fun l => parseJ f l) fi (renderObj kvs ++ '\x7d' :: rest) =
        some (kvs, rest)) := by
  intro n
  induction n with
  | zero =>
      refine ⟨?_, ?_, ?_⟩
      · intro j _ _ hsz _ _
        have := jsize_pos j
        omega
      · intro xs _ _ _ hsz _ _ _
        have := asize_pos xs
        omega
      · intro kvs _ _ _ hsz _ _ _
        have := osize_pos kvs
        omega
  | succ m ih =>
      obtain ⟨ihJ, ihA, ihO⟩ := ih
      refine ⟨?_, ?_, ?_⟩
      · -- values
        intro j f rest hsz hf hrest
        cases f with
        | zero => omega
        | succ f2 =>
            cases j with
            | jnull =>
                rw [renderJson_jnull_eq]
                exact parseJ_step_null f2 rest
            | jbool b =>
                cases b with
                | true =>
                    rw [renderJson_jtrue_eq]
                    exact parseJ_step_true f2 rest
                | false =>
                    rw [renderJson_jfalse_eq]
                    exact parseJ_step_false f2 rest
            | jnum n2 =>
                have hP := parseIntTok_renderInt n2 rest hrest
                by_cases hneg : n2 < 0
                · have hri : renderInt n2 = '-' :: renderNat n2.natAbs := by
                    simp [renderInt, hneg]
                  rw [renderJson_jnum_eq, hri, List.cons_append, parseJ_step_minus]
                  rw [hri] at hP
                  simp only [List.cons_append] at hP
                  rw [hP]
                · obtain ⟨d, ds, hd, hhead⟩ := renderNat_head n2.toNat
                  have hri : renderInt n2 = digitChar d :: ds.map digitChar := by
                    rw [renderInt, if_neg hneg, hhead]
                  rw [renderJson_jnum_eq, hri, List.cons_append,
                    parseJ_step_digit f2 d hd]
                  rw [hri] at hP
                  simp only [List.cons_append] at hP
                  rw [hP]
            | jstr s =>
                have hstream : renderJson (.jstr s) ++ rest =
                    '"' :: (escChars s.data ++ '"' :: rest) := by
                  rw [renderJson_jstr_eq, renderStr]
                  simp
                rw [hstream, parseJ_step_str, parseStrBody_esc s.data rest]
            | jarr xs =>
                cases xs with
                | anil =>
                    have hstream : renderJson (.jarr .anil) ++ rest =
                        '[' :: ']' :: rest := by
                      rw [renderJson_jarr_eq]
                      simp [renderArr]
                    rw [hstream]
                    exact parseJ_step_arr_nil f2 rest
                | acons h t =>
                    have hsz2 : jsize (.jarr (.acons h t)) = asize (.acons h t) + 1 := by
                      rw [jsize.eq_def]
                    have hsub : asize (JArr.acons h t) ≤ m := by omega
                    have hlen2 : (renderJson (.jarr (.acons h t))).length =
                        (renderArr (.acons h t)).length + 2 := by
                      rw [renderJson_jarr_eq]
                      simp
                    have hcount : arrCount (JArr.acons h t) ≤ f2 := by
                      have := arrCount_le_renderArr (JArr.acons h t)
                      omega
                    have hflen : (renderArr (.acons h t)).length < f2 := by omega
                    have hItems := ihA (JArr.acons h t) f2 f2 rest hsub
                      (fun hh => JArr.noConfusion hh) hcount hflen
                    obtain ⟨c0, l0, hc0, hc0r, _⟩ := renderJson_head h
                    obtain ⟨tl, htl⟩ := renderArr_cons h t
                    have hra : renderArr (.acons h t) = c0 :: (l0 ++ tl) := by
                      rw [htl, hc0]
                      simp
                    have hstream : renderJson (.jarr (.acons h t)) ++ rest =
                        '[' :: (c0 :: ((l0 ++ tl) ++ ']' :: rest)) := by
                      rw [renderJson_jarr_eq, hra]
                      simp
                    rw [hstream, parseJ_step_arr, if_neg hc0r]
                    have hback : (c0 :: ((l0 ++ tl) ++ ']' :: rest)) =
                        renderArr (.acons h t) ++ ']' :: rest := by
                      rw [hra]
                      simp
                    rw [hback, hItems]
            | jobj kvs =>
                cases kvs with
                | onil =>
                    have hstream : renderJson (.jobj .onil) ++ rest =
                        '\x7b' :: '\x7d' :: rest := by
                      rw [renderJson_jobj_eq]
                      simp [renderObj]
                    rw [hstream]
                    exact parseJ_step_obj_nil f2 rest
                | ocons k v t =>
                    have hsz2 : jsize (.jobj (.ocons k v t)) = osize (.ocons k v t) + 1 := by
                      rw [jsize.eq_def]
                    have hsub : osize (JObj.ocons k v t) ≤ m := by omega
                    have hlen2 : (renderJson (.jobj (.ocons k v t))).length =
                        (renderObj (.ocons k v t)).length + 2 := by
                      rw [renderJson_jobj_eq]
                      simp
                    have hcount : objCount (JObj.ocons k v t) ≤ f2 := by
                      have := objCount_le_renderObj (JObj.ocons k v t)
                      omega
                    have hflen : (renderObj (.ocons k v t)).length < f2 := by omega
                    have hFields := ihO (JObj.ocons k v t) f2 f2 rest hsub
                      (fun hh => JObj.noConfusion hh) hcount hflen
                    have hzz : ∃ z, renderObj (.ocons k v t) = renderStr k ++ z := by
                      cases t with
                      | onil =>
                          exact ⟨':' :: ' ' :: renderJson v, by rw [renderObj.eq_def]⟩
                      | ocons k2 v2 t2 =>
                          exact ⟨(':' :: ' ' :: renderJson v) ++
                            (',' :: ' ' :: renderObj (.ocons k2 v2 t2)), by
                              rw [renderObj.eq_def]
                              simp⟩
                    have hobjhead : ∃ tl2, renderObj (.ocons k v t) = '"' :: tl2 := by
                      obtain ⟨z, hz⟩ := hzz
                      exact ⟨escChars k.data ++ '"' :: z, by
                        rw [hz, renderStr]
                        simp⟩
                    obtain ⟨tl2, htl2⟩ := hobjhead
                    have hstream : renderJson (.jobj (.ocons k v t)) ++ rest =
                        '\x7b' :: ('"' :: (tl2 ++ '\x7d' :: rest)) := by
                      rw [renderJson_jobj_eq, htl2]
                      simp
                    rw [hstream, parseJ_step_obj,
                      if_neg (by decide : ¬ (('"' : Char) = '\x7d'))]
                    have hback : (('"' : Char) :: (tl2 ++ '\x7d' :: rest)) =
                        renderObj (.ocons k v t) ++ '\x7d' :: rest := by
                      rw [htl2]
                      simp
                    rw [hback, hFields]
      · -- array items
        intro xs f fi rest hsz hne hcount hlen
        cases xs with
        | anil => exact absurd rfl hne
        | acons h t =>
            cases fi with
            | zero => simp [arrCount] at hcount
            | succ fi2 =>
                have hszx : asize (.acons h t) = jsize h + asize t + 1 := by
                  rw [asize.eq_def]
                cases t with
                | anil =>
                    have hjh : jsize h ≤ m := by
                      have := asize_pos JArr.anil
                      omega
                    have hra : renderArr (JArr.acons h .anil) = renderJson h := by
                      rw [renderArr.eq_def]
                    rw [hra] at hlen ⊢
                    have hpv := ihJ h f (']' :: rest) hjh hlen rfl
                    rw [parseItemsWith_step]
                    rw [show renderJson h ++ ']' :: rest =
                      renderJson h ++ (']' :: rest) from rfl, hpv]
                    simp
                | acons h2 t2 =>
                    have hjh : jsize h ≤ m := by
                      have := asize_pos (JArr.acons h2 t2)
                      omega
                    have hsub : asize (JArr.acons h2 t2) ≤ m := by
                      have := jsize_pos h
                      omega
                    have hra : renderArr (JArr.acons h (.acons h2 t2)) =
                        renderJson h ++ ',' :: ' ' :: renderArr (.acons h2 t2) := by
                      rw [renderArr.eq_def]
                    rw [hra] at hlen ⊢
                    have hflen : (renderJson h).length < f := by
                      simp only [List.length_append, List.length_cons] at hlen
                      omega
                    have hpv := ihJ h f
                      (',' :: ' ' :: (renderArr (.acons h2 t2) ++ ']' :: rest))
                      hjh hflen rfl
                    have hcount2 : arrCount (JArr.acons h2 t2) ≤ fi2 := by
                      simp only [arrCount] at hcount ⊢
                      omega
                    have hflen2 : (renderArr (.acons h2 t2)).length < f := by
                      simp only [List.length_append, List.length_cons] at hlen
                      omega
                    have hrec := ihA (JArr.acons h2 t2) f fi2 rest hsub
                      (fun hh => JArr.noConfusion hh) hcount2 hflen2
                    rw [parseItemsWith_step]
                    have hassoc : (renderJson h ++ ',' :: ' ' :: renderArr (.acons h2 t2))
                        ++ ']' :: rest = renderJson h ++
                        (',' :: ' ' :: (renderArr (.acons h2 t2) ++ ']' :: rest)) := by
                      simp
                    rw [hassoc, hpv]
                    simp [hrec]
      · -- object fields
        intro kvs f fi rest hsz hne hcount hlen
        cases kvs with
        | onil => exact absurd rfl hne
        | ocons k v t =>
            cases fi with
            | zero => simp [objCount] at hcount
            | succ fi2 =>
                have hszx : osize (.ocons k v t) = jsize v + osize t + 1 := by
                  rw [osize.eq_def]
                cases t with
                | onil =>
                    have hjv : jsize v ≤ m := by
                      have := osize_pos JObj.onil
                      omega
                    have hro : renderObj (JObj.ocons k v .onil) =
                        renderStr k ++ ':' :: ' ' :: renderJson v := by
                      rw [renderObj.eq_def]
                    rw [hro] at hlen ⊢
                    have hflen : (renderJson v).length < f := by
                      simp only [List.length_append, List.length_cons] at hlen
                      omega
                    have hpv := ihJ v f ('\x7d' :: rest) hjv hflen rfl
                    rw [parseFieldsWith_step]
                    have hassoc : (renderStr k ++ ':' :: ' ' :: renderJson v)
                        ++ '\x7d' :: rest = '"' :: (escChars k.data ++
                        '"' :: (':' :: ' ' :: (renderJson v ++ '\x7d' :: rest))) := by
                      rw [renderStr]
                      simp
                    rw [hassoc]
                    simp only [parseStrBody_esc k.data]
                    rw [hpv]
                    simp
                | ocons k2 v2 t2 =>
                    have hjv : jsize v ≤ m := by
                      have := osize_pos (JObj.ocons k2 v2 t2)
                      omega
                    have hsub : osize (JObj.ocons k2 v2 t2) ≤ m := by
                      have := jsize_pos v
                      omega
                    have hro : renderObj (JObj.ocons k v (.ocons k2 v2 t2)) =
                        renderStr k ++ ':' :: ' ' :: renderJson v ++
                          ',' :: ' ' :: renderObj (.ocons k2 v2 t2) := by
                      rw [renderObj.eq_def]
                    rw [hro] at hlen ⊢
                    have hflen : (renderJson v).length < f := by
                      simp only [List.length_append, List.length_cons, renderStr] at hlen
                      omega
                    have hcount2 : objCount (JObj.ocons k2 v2 t2) ≤ fi2 := by
                      simp only [objCount] at hcount ⊢
                      omega
                    have hflen2 : (renderObj (.ocons k2 v2 t2)).length < f := by
                      simp only [List.length_append, List.length_cons] at hlen
                      omega
                    have hpv := ihJ v f
                      (',' :: ' ' :: (renderObj (.ocons k2 v2 t2) ++ '\x7d' :: rest))
                      hjv hflen rfl
                    have hrec := ihO (JObj.ocons k2 v2 t2) f fi2 rest hsub
                      (fun hh => JObj.noConfusion hh) hcount2 hflen2
                    rw [parseFieldsWith_step]
                    have hassoc : (renderStr k ++ ':' :: ' ' :: renderJson v ++
                        ',' :: ' ' :: renderObj (.ocons k2 v2 t2)) ++ '\x7d' :: rest =
                        '"' :: (escChars k.data ++ '"' :: (':' :: ' ' ::
                          (renderJson v ++ (',' :: ' ' ::
                            (renderObj (.ocons k2 v2 t2) ++ '\x7d' :: rest))))) := by
                      rw [renderStr]
                      simp
                    rw [hassoc]
                    simp only [parseStrBody_esc k.data]
                    rw [hpv]
                    simp [hrec]

/-- `json.loads` inverts `json.dumps` on every value. -/
theorem loads_dumps (j : Json) : loads (dumps j) = some j := by
  have h := (parse_render_main (jsize j)).1 j ((renderJson j).length + 1) []
    le_rfl (by omega) rfl
  rw [List.append_nil] at h
  rw [show loads (dumps j) =
    (match parseJ ((renderJson j).length + 1) (renderJson j) with
     | some (jv, []) => some jv
     | _ => none) from rfl]
  rw [h]

/-- A list of integers as a JSON array. -/
def intsArr : List Int → JArr
  | [] => .anil
  | n :: t => .acons (.jnum n) (intsArr t)

/-- The `operation` field as JSON: a bare string for filters, the
`\x7b'enhancement', 'enhancement_factor'\x7d` dict (in the insertion order of
app.py line 360) for enhancements. -/
def opJson : OpVal → Json
  | .opName s => .jstr s
  | .opEnh nm fct =>
      .jobj (.ocons "enhancement" (.jstr nm) (.ocons "enhancement_factor" (.jnum fct) .onil))

/-- The `selectedData` field as JSON: `null`, a `range` dict, or a
`lassoPoints` dict, with the plotly field layout read by app.py
lines 233-245. -/
def selJson : Option SelData → Json
  | none => .jnull
  | some (.rectSel x0 x1 y0 y1) =>
      .jobj (.ocons "range"
        (.jobj (.ocons "x" (.jarr (intsArr [x0, x1]))
          (.ocons "y" (.jarr (intsArr [y0, y1])) .onil))) .onil)
  | some (.lassoSel xs ys) =>
      .jobj (.ocons "lassoPoints"
        (.jobj (.ocons "x" (.jarr (intsArr xs))
          (.ocons "y" (.jarr (intsArr ys)) .onil))) .onil)

/-- One action as JSON, with the key insertion order of
`add_action_to_stack` (app.py lines 202-206). -/
def actionJson (a : Action) : Json :=
  .jobj (.ocons "operation" (opJson a.operation)
    (.ocons "type" (.jstr a.type)
      (.ocons "selectedData" (selJson a.selectedData) .onil)))

/-- The action list as a JSON array, in order. -/
def stackArr : List Action → JArr
  | [] => .anil
  | a :: t => .acons (actionJson a) (stackArr t)

/-- The serialized form of the action stack handed to `json.dumps`
(app.py line 382). -/
def stackJson (s : List Action) : Json := .jarr (stackArr s)

/-- Decoder for an integer array. -/
def intsOfArr : JArr → Option (List Int)
  | .anil => some []
  | .acons (.jnum n) t => (intsOfArr t).map (fun l => n :: l)
  | _ => none

/-- Decoder for the `operation` field. -/
def opFromJson : Json → Option OpVal
  | .jstr s => some (.opName s)
  | .jobj (.ocons "enhancement" (.jstr nm)
      (.ocons "enhancement_factor" (.jnum fct) .onil)) => some (.opEnh nm fct)
  | _ => none

/-- Decoder for the `selectedData` field. -/
def selFromJson : Json → Option (Option SelData)
  | .jnull => some none
  | .jobj (.ocons "range" (.jobj (.ocons "x" (.jarr xa)
      (.ocons "y" (.jarr ya) .onil))) .onil) =>
      match intsOfArr xa, intsOfArr ya with
      | some [x0, x1], some [y0, y1] => some (some (.rectSel x0 x1 y0 y1))
      | _, _ => none
  | .jobj (.ocons "lassoPoints" (.jobj (.ocons "x" (.jarr xa)
      (.ocons "y" (.jarr ya) .onil))) .onil) =>
      match intsOfArr xa, intsOfArr ya with
      | some xs, some ys => some (some (.lassoSel xs ys))
      | _, _ => none
  | _ => none

/-- Decoder for one action record. -/
def actionFromJson : Json → Option Action
  | .jobj (.ocons "operation" oj (.ocons "type" (.jstr ty)
      (.ocons "selectedData" sj .onil))) =>
      match opFromJson oj, selFromJson sj with
      | some op, some sel => some { operation := op, type := ty, selectedData := sel }
      | _, _ => none
  | _ => none

/-- Decoder for the action array. -/
def stackOfArr : JArr → Option (List Action)
  | .anil => some []
  | .acons j t =>
      match actionFromJson j, stackOfArr t with
      | some a, some l => some (a :: l)
      | _, _ => none

/-- Decoder for the serialized action stack. -/
def stackFromJson : Json → Option (List Action)
  | .jarr xs => stackOfArr xs
  | _ => none

theorem intsOfArr_intsArr : ∀ (l : List Int), intsOfArr (intsArr l) = some l := by
  intro l
  induction l with
  | nil => rfl
  | cons n t ih => simp [intsArr, intsOfArr, ih]

theorem opFromJson_opJson (v : OpVal) : opFromJson (opJson v) = some v := by
  cases v <;> rfl

theorem selFromJson_selJson (s : Option SelData) : selFromJson (selJson s) = some s := by
  match s with
  | none => rfl
  | some (.rectSel x0 x1 y0 y1) =>
      simp [selJson, selFromJson, intsOfArr_intsArr]
  | some (.lassoSel xs ys) =>
      simp [selJson, selFromJson, intsOfArr_intsArr]

theorem actionFromJson_actionJson (a : Action) : actionFromJson (actionJson a) = some a := by
  rw [actionJson, actionFromJson]
  rw [opFromJson_opJson, selFromJson_selJson]

theorem stackOfArr_stackArr : ∀ (s : List Action), stackOfArr (stackArr s) = some s := by
  intro s
  induction s with
  | nil => rfl
  | cons a t ih => simp [stackArr, stackOfArr, actionFromJson_actionJson, ih]

theorem stackFromJson_stackJson (s : List Action) : stackFromJson (stackJson s) = some s := by
  rw [stackJson, stackFromJson]
  exact stackOfArr_stackArr s

/-- Key lookup in a JSON object, as Python dict indexing. -/
def lookupObj : JObj → String → Option Json
  | .onil, _ => none
  | .ocons k v t, key => if k = key then some v else lookupObj t key

mutual
/-- Python `==` on JSON values: arrays compare element-wise in order, but
objects compare as Python dicts do — same entry count and every key of one
maps to an equal value in the other, regardless of storage order. -/
def pyEq : Json → Json → Bool
  | .jnull, .jnull => true
  | .jbool a, .jbool b => a == b
  | .jnum a, .jnum b => a == b
  | .jstr a, .jstr b => a == b
  | .jarr xs, .jarr ys => pyEqArr xs ys
  | .jobj o1, .jobj o2 => objCount o1 == objCount o2 && pyEqObjSub o1 o2
  | _, _ => false
def pyEqArr : JArr → JArr → Bool
  | .anil, .anil => true
  | .acons h t, .acons h2 t2 => pyEq h h2 && pyEqArr t t2
  | _, _ => false
def pyEqObjSub : JObj → JObj → Bool
  | .onil, _ => true
  | .ocons k v t, o2 =>
      (match lookupObj o2 k with
       | some v2 => pyEq v v2
       | none => false) && pyEqObjSub t o2
end

/-- C6 (amended): the action-stack serialization is an order-preserving,
losslessly round-trippable encoding: for every action stack,
deserializing the serialized stack — `json.loads` of the `json.dumps`
string, then reading the records back — returns the stack itself.  The
encoding is canonical only for a fixed object-key insertion order (the one
`add_action_to_stack` produces); it is not independent of key ordering. -/
theorem stack_serialization_roundtrip (stack : List Action) :
    (loads (dumps (stackJson stack))).bind stackFromJson = some stack := by
  rw [loads_dumps]
  simp only [Option.some_bind]
  exact stackFromJson_stackJson stack

/-- The record of `act0` with its dict keys stored in a different insertion
order (`type` before `operation`): equal to `actionJson act0` as a Python
dict, but serialized differently. -/
def actJreordered : Json :=
  .jobj (.ocons "type" (.jstr "filter")
    (.ocons "operation" (.jstr "blur")
      (.ocons "selectedData" .jnull .onil)))

/-- C6 counterexample: two stacks that are equal under Python `==` (same
records, object keys in different insertion order) serialize to different
strings, so the encoding does depend on map/object key ordering. -/
theorem stack_serialization_key_order_counterexample :
    pyEq (stackJson [act0]) (.jarr (.acons actJreordered .anil)) = true ∧
    dumps (stackJson [act0]) ≠ dumps (.jarr (.acons actJreordered .anil)) := by decide

end DashApp
